/-
Verification of the variational-inference semantic dependency / semantic role
labeling model (supar: src/supar/models/srl.py and src/supar/parsers/sdp.py).

The tensors of the source are embedded as curried functions over Fin indices:
a PyTorch tensor of shape (batch, n, n, n) becomes
Fin B -> Fin n -> Fin n -> Fin n -> alpha.  Floating-point values are embedded
in an arbitrary linear ordered field (instantiated at the rationals for
concrete evaluation and at the reals for the analytic parts), and the torch
primitives used by the source (triu, transpose, permute, argmax, masked_fill,
comparison against a scalar) are given direct definitional counterparts.
-/
import Mathlib

namespace SRL

variable {α : Type} [LinearOrderedField α]

/-- A 2-d tensor of shape (n, n): edge scores, marginals. -/
abbrev Tensor2 (n : ℕ) (α : Type) := Fin n → Fin n → α

/-- A 3-d tensor of shape (n, n, n): one batch element of a triplet potential. -/
abbrev Tensor3 (n : ℕ) (α : Type) := Fin n → Fin n → Fin n → α

/-- A batched 4-d tensor of shape (B, n, n, n), as produced by a triaffine scorer. -/
abbrev Tensor4 (B n : ℕ) (α : Type) := Fin B → Fin n → Fin n → Fin n → α

/-- Label score tensor of shape (n, n, n_labels) for one batch element; the label
vocabulary is nonempty, so its size is written L + 1. -/
abbrev LabelTensor (n L : ℕ) (α : Type) := Fin n → Fin n → Fin (L + 1) → α

/-- A boolean 2-d mask of shape (n, n). -/
abbrev BoolMask (n : ℕ) := Fin n → Fin n → Bool

/-- torch.Tensor.triu(diagonal = k) on a 4-d tensor: acts on the last two
dimensions, keeping entry (r, c) when r + k is at most c and zeroing the rest. -/
def triu4 {B n : ℕ} (k : ℕ) (t : Tensor4 B n α) : Tensor4 B n α :=
  fun b z x y => if x.val + k ≤ y.val then t b z x y else 0

/-- torch.Tensor.transpose(-1, -2) on a 4-d tensor: swaps the last two dimensions. -/
def transposeLast2 {B n : ℕ} (t : Tensor4 B n α) : Tensor4 B n α :=
  fun b z x y => t b z y x

/-- torch.Tensor.permute(0, 3, 1, 2) on a 4-d tensor: the output entry at
(b, i, j, k) is the input entry at (b, j, k, i). -/
def permute0312 {B n : ℕ} (t : Tensor4 B n α) : Tensor4 B n α :=
  fun b i j k => t b j k i

/-- Sibling potential assembly from srl.py line 193:
s_sib = (s_sib.triu() + s_sib.triu(1).transpose(-1, -2)).permute(0, 3, 1, 2).
The raw tensor is the triaffine output, indexed (batch, head, dep_x, dep_y); the
assembled tensor is indexed (batch, dependent, head, sibling). -/
def sibPotential {B n : ℕ} (raw : Tensor4 B n α) : Tensor4 B n α :=
  permute0312 (fun b z x y => triu4 0 raw b z x y + transposeLast2 (triu4 1 raw) b z x y)

/-- Co-parent potential assembly from srl.py lines 195 to 196:
s_cop = self.cop_attn(pair_h, pair_d, pair_h).permute(0, 3, 1, 2);
s_cop = s_cop.triu() + s_cop.triu(1).transpose(-1, -2).
The raw tensor is the triaffine output, indexed (batch, head_z, head_x, dep_y);
the assembled tensor is indexed (batch, dependent, head, co-parent head). -/
def copPotential {B n : ℕ} (raw : Tensor4 B n α) : Tensor4 B n α :=
  fun b i j k =>
    triu4 0 (permute0312 raw) b i j k + transposeLast2 (triu4 1 (permute0312 raw)) b i j k

/-- torch.Tensor.argmax over the last dimension of a label score tensor: the
first index attaining the maximal value, computed by a left fold over the label
indices in order. -/
def argmaxFin {L : ℕ} (v : Fin (L + 1) → α) : Fin (L + 1) :=
  (List.finRange (L + 1)).foldl (fun best i => if v best < v i then i else best) 0

/-- s_egde.lt(0.5) from srl.py line 246: the boolean tensor comparing each edge
score (marginal) against the fixed threshold 0.5. -/
def ltHalf {n : ℕ} (t : Tensor2 n α) : BoolMask n :=
  fun i j => decide (t i j < 1 / 2)

/-- torch.Tensor.masked_fill_(mask, value) on an integer 2-d tensor: entries
where the mask is true are replaced by the fill value. -/
def maskedFillInt {n : ℕ} (t : Fin n → Fin n → ℤ) (m : BoolMask n) (v : ℤ) :
    Fin n → Fin n → ℤ :=
  fun i j => if m i j then v else t i j

/-- s_label.argmax(-1) from srl.py line 246, as an integer tensor of label
indices. -/
def argmaxLast {n L : ℕ} (sl : LabelTensor n L α) : Fin n → Fin n → ℤ :=
  fun d h => ((argmaxFin (sl d h) : ℕ) : ℤ)

/-- VISemanticRoleLabelingModel.decode (srl.py line 246):
s_label.argmax(-1).masked_fill_(s_egde.lt(0.5), -1).  The threshold 0.5 is the
literal in the source, not a parameter of the call. -/
def decode {n L : ℕ} (se : Tensor2 n α) (sl : LabelTensor n L α) : Fin n → Fin n → ℤ :=
  maskedFillInt (argmaxLast sl) (ltHalf se) (-1)

/-- The token-pair mask of sdp.py (lines 383 to 384 and 426 to 427):
mask.unsqueeze(1) and mask.unsqueeze(2), from the per-token mask m of one batch
element.  Entry (d, h) — first index the dependent, second the head — is the
conjunction of the token mask at h (broadcast of unsqueeze(1)) with the token
mask at d (broadcast of unsqueeze(2)). -/
def pairMask {n : ℕ} (m : Fin n → Bool) : BoolMask n := fun d h => m h && m d

/-- The arc mask handed to the inference engine and to the loss (sdp.py lines
385 and 428): mask[:, 0] = 0 zeroes the whole row of dependent index 0 of the
pair mask before the model is invoked. -/
def arcMask {n : ℕ} (m : Fin n → Bool) : BoolMask n :=
  fun d h => if d.val = 0 then false else pairMask m d h

/-- The arc-existence mask of VISemanticRoleLabelingModel.loss (srl.py line
227): labels.ge(0) and mask, true where the gold label is known (at least 0)
and the structural mask holds. -/
def edgeMask {n : ℕ} (labels : Fin n → Fin n → ℤ) (mask : BoolMask n) : BoolMask n :=
  fun d h => decide (0 ≤ labels d h) && mask d h

/-- edge_mask.long() from srl.py line 228: the 0/1 integer tensor of the
arc-existence mask, handed to the inference engine as its target. -/
def edgeMaskLong {n : ℕ} (labels : Fin n → Fin n → ℤ) (mask : BoolMask n) :
    Fin n → Fin n → ℤ :=
  fun d h => if edgeMask labels mask d h then 1 else 0

/-- Boolean mask indexing t[edge_mask] for 2-d index tensors: the selected
(dependent, head) positions in row-major order. -/
def maskedIndices {n : ℕ} (em : BoolMask n) : List (Fin n × Fin n) :=
  (List.finRange n).flatMap fun d =>
    (List.finRange n).filterMap fun hd => if em d hd then some (d, hd) else none

/-- The type of the configured inference engine as invoked by loss (srl.py line
228): it receives the four score tensors, the structural mask and the 0/1 gold
target, and returns the edge loss together with the marginals. -/
abbrev EngineG (n : ℕ) (α : Type) :=
  Tensor2 n α → Tensor3 n α → Tensor3 n α → Tensor3 n α → BoolMask n →
    (Fin n → Fin n → ℤ) → α × Tensor2 n α

/-- The logistic sigmoid. -/
noncomputable def sigmoid (x : ℝ) : ℝ := 1 / (1 + Real.exp (-x))

/-- The per-item term of torch.nn.CrossEntropyLoss: the negative log soft-max of
the score vector at the gold class index. -/
noncomputable def softmaxNLL {L : ℕ} (v : Fin (L + 1) → ℝ) (y : ℤ) : ℝ :=
  Real.log (∑ s, Real.exp (v s)) -
    (if hy : y.toNat < L + 1 then v ⟨y.toNat, hy⟩ else 0)

/-- torch.nn.CrossEntropyLoss with its default mean reduction, over a list of
score vectors and the matching list of gold class indices. -/
noncomputable def crossEntropyMean {L : ℕ} (sv : List (Fin (L + 1) → ℝ))
    (ys : List ℤ) : ℝ :=
  ((List.zip sv ys).map fun p => softmaxNLL p.1 p.2).sum / (List.zip sv ys).length

/-- VISemanticRoleLabelingModel.loss (srl.py lines 227 to 231) for one batch
element.  The configured inference engine and the interpolation constant are the
model configuration fixed at construction (srl.py lines 150 and 230) and appear
as explicit arguments; the criterion is torch.nn.CrossEntropyLoss (line 151),
applied to the label scores and gold labels selected by the arc-existence
mask. -/
noncomputable def VIloss {n L : ℕ} (engine : EngineG n ℝ) (interpolation : ℝ)
    (se : Tensor2 n ℝ) (ssib scop sgrd : Tensor3 n ℝ) (sl : LabelTensor n L ℝ)
    (labels : Fin n → Fin n → ℤ) (mask : BoolMask n) : ℝ × Tensor2 n ℝ :=
  let em := edgeMask labels mask
  let r := engine se ssib scop sgrd mask (edgeMaskLong labels mask)
  let label_loss := crossEntropyMean ((maskedIndices em).map fun p => sl p.1 p.2)
    ((maskedIndices em).map fun p => labels p.1 p.2)
  (interpolation * label_loss + (1 - interpolation) * r.1, r.2)

/-- Modelled from the spec: one fixed-point update of the MFVI strategy of the
inference engine (supar.structs MFVISemanticDependency is not under src), spec
section 4.2.1.  The new belief at arc (i, j) is the sigmoid of the unary
potential plus the expected sibling, co-parent and grandparent contributions
under the current beliefs, re-masked. -/
noncomputable def mfviUpdate {n : ℕ} (u : Tensor2 n ℝ) (sib cop grd : Tensor3 n ℝ)
    (mask : BoolMask n) (q : Tensor2 n ℝ) : Tensor2 n ℝ :=
  fun i j =>
    if mask i j then
      sigmoid (u i j + ((∑ k, q i k * sib i j k) + (∑ k, q k j * cop i j k) +
        (∑ k, q j k * grd i j k) + (∑ k, q k i * grd k i j)))
    else 0

/-- Modelled from the spec: MFVI initialization, the belief q0 is sigmoid of the
unary potential under the mask (spec section 4.2.1). -/
noncomputable def mfviInit {n : ℕ} (u : Tensor2 n ℝ) (mask : BoolMask n) :
    Tensor2 n ℝ :=
  fun i j => if mask i j then sigmoid (u i j) else 0

/-- Modelled from the spec: the MFVI inference engine, iterating the fixed-point
update max_iter times from the unary-only initialization. -/
noncomputable def mfviInfer {n : ℕ} (u : Tensor2 n ℝ) (sib cop grd : Tensor3 n ℝ)
    (mask : BoolMask n) (max_iter : ℕ) : Tensor2 n ℝ :=
  (mfviUpdate u sib cop grd mask)^[max_iter] (mfviInit u mask)

/-- Modelled from the spec: the directed factor-to-variable messages of the LBP
strategy (supar.structs LBPSemanticDependency is not under src), in log-odds
form, one table per triplet-factor orientation.  Field sib i j k carries the
message to arc (i, j) from the sibling factor joining arcs (i, j) and (i, k);
cop i j k the message to (i, j) from the co-parent factor joining (i, j) and
(k, j); grdH i j k the message to (i, j) from the grandparent factor joining
(i, j) and (j, k); grdL i j k the message to (i, j) from the grandparent factor
joining (k, i) and (i, j). -/
structure LBPMsgs (n : ℕ) where
  sib : Fin n → Fin n → Fin n → ℝ
  cop : Fin n → Fin n → Fin n → ℝ
  grdH : Fin n → Fin n → Fin n → ℝ
  grdL : Fin n → Fin n → Fin n → ℝ

/-- Modelled from the spec: the belief at an arc is its unary potential plus the
sum of all incoming factor-to-variable messages (spec section 4.2.2). -/
noncomputable def lbpBelief {n : ℕ} (u : Tensor2 n ℝ) (ms : LBPMsgs n) :
    Tensor2 n ℝ :=
  fun i j => u i j + ∑ k, (ms.sib i j k + ms.cop i j k + ms.grdH i j k + ms.grdL i j k)

/-- log-sum-exp of two values. -/
noncomputable def logaddexp (a b : ℝ) : ℝ := Real.log (Real.exp a + Real.exp b)

/-- Modelled from the spec: a pairwise factor-to-variable message in log-odds
form: the log-sum-exp marginalization of the factor potential over the other
variable, weighted by that variable's variable-to-factor message v. -/
noncomputable def pairFactorMsg (v s : ℝ) : ℝ := logaddexp (v + s) 0 - logaddexp v 0

/-- Modelled from the spec: one synchronous LBP message update round (spec
section 4.2.2).  Every factor-to-variable message is recomputed from the other
variable's variable-to-factor message, which is its current belief minus the
message previously received from that same factor (the belief-propagation
exclusion rule); messages touching masked arcs are zero. -/
noncomputable def lbpUpdate {n : ℕ} (u : Tensor2 n ℝ) (sib cop grd : Tensor3 n ℝ)
    (mask : BoolMask n) (ms : LBPMsgs n) : LBPMsgs n where
  sib := fun i j k =>
    if mask i j && mask i k then
      pairFactorMsg (lbpBelief u ms i k - ms.sib i k j) (sib i j k)
    else 0
  cop := fun i j k =>
    if mask i j && mask k j then
      pairFactorMsg (lbpBelief u ms k j - ms.cop k j i) (cop i j k)
    else 0
  grdH := fun i j k =>
    if mask i j && mask j k then
      pairFactorMsg (lbpBelief u ms j k - ms.grdL j k i) (grd i j k)
    else 0
  grdL := fun i j k =>
    if mask i j && mask k i then
      pairFactorMsg (lbpBelief u ms k i - ms.grdH k i j) (grd k i j)
    else 0

/-- Modelled from the spec: the LBP inference engine: all messages start at
zero, max_iter synchronous rounds are run, and the final belief is squashed
through the sigmoid and re-masked (spec section 4.2.2). -/
noncomputable def lbpInfer {n : ℕ} (u : Tensor2 n ℝ) (sib cop grd : Tensor3 n ℝ)
    (mask : BoolMask n) (max_iter : ℕ) : Tensor2 n ℝ :=
  let ms := (lbpUpdate u sib cop grd mask)^[max_iter]
    ⟨fun _ _ _ => 0, fun _ _ _ => 0, fun _ _ _ => 0, fun _ _ _ => 0⟩
  fun i j => if mask i j then sigmoid (lbpBelief u ms i j) else 0

/-- A heap value: one PyTorch tensor, as stored by the frame-condition model of
loss and decode.  The kinds cover the tensors those two methods touch. -/
inductive TVal (n L : ℕ) (α : Type) where
  | m2 (f : Fin n → Fin n → α)
  | t3 (f : Fin n → Fin n → Fin n → α)
  | lab (f : Fin n → Fin n → Fin (L + 1) → α)
  | im2 (f : Fin n → Fin n → ℤ)
  | bm2 (f : Fin n → Fin n → Bool)
  | sc (x : α)
  | labList (l : List (Fin (L + 1) → α))
  | intList (l : List ℤ)

/-- The heap of tensors, addressed by list position; allocation appends. -/
abbrev Heap (n L : ℕ) (α : Type) := List (TVal n L α)

/-- Allocate a fresh tensor, returning its address and the new heap. -/
def heapAlloc {n L : ℕ} {α : Type} (h : Heap n L α) (v : TVal n L α) :
    ℕ × Heap n L α :=
  (h.length, h ++ [v])

/-- An in-place write at an existing address, as performed by the torch
mutating operations whose names end with an underscore. -/
def heapWrite {n L : ℕ} {α : Type} (h : Heap n L α) (a : ℕ) (v : TVal n L α) :
    Heap n L α :=
  h.set a v

/-- Read a 2-d score tensor at an address. -/
def readM2 {n L : ℕ} {α : Type} (h : Heap n L α) (a : ℕ) : Option (Tensor2 n α) :=
  match h[a]? with
  | some (.m2 f) => some f
  | _ => none

/-- Read a 3-d triplet score tensor at an address. -/
def readT3 {n L : ℕ} {α : Type} (h : Heap n L α) (a : ℕ) : Option (Tensor3 n α) :=
  match h[a]? with
  | some (.t3 f) => some f
  | _ => none

/-- Read a label score tensor at an address. -/
def readLab {n L : ℕ} {α : Type} (h : Heap n L α) (a : ℕ) :
    Option (LabelTensor n L α) :=
  match h[a]? with
  | some (.lab f) => some f
  | _ => none

/-- Read an integer 2-d tensor at an address. -/
def readIM2 {n L : ℕ} {α : Type} (h : Heap n L α) (a : ℕ) :
    Option (Fin n → Fin n → ℤ) :=
  match h[a]? with
  | some (.im2 f) => some f
  | _ => none

/-- Read a boolean 2-d tensor at an address. -/
def readBM2 {n L : ℕ} {α : Type} (h : Heap n L α) (a : ℕ) : Option (BoolMask n) :=
  match h[a]? with
  | some (.bm2 f) => some f
  | _ => none

/-- VISemanticRoleLabelingModel.decode (srl.py line 246) as a heap program,
making the torch allocation and mutation behavior explicit:
s_label.argmax(-1) allocates a fresh tensor, s_egde.lt(0.5) allocates a fresh
boolean tensor, and masked_fill_ mutates the fresh argmax tensor in place; the
address of that mutated fresh tensor is returned. -/
def decodeProg {n L : ℕ} {α : Type} [LinearOrderedField α] (eA lA : ℕ)
    (h : Heap n L α) : Option (ℕ × Heap n L α) :=
  (readLab h lA).bind fun sl =>
    (readM2 h eA).bind fun se =>
      let p1 := heapAlloc h (.im2 (argmaxLast sl))
      let p2 := heapAlloc p1.2 (.bm2 (ltHalf se))
      some (p1.1, heapWrite p2.2 p1.1 (.im2 (maskedFillInt (argmaxLast sl) (ltHalf se) (-1))))

/-- VISemanticRoleLabelingModel.loss (srl.py lines 227 to 231) as a heap
program.  Every torch operation allocates a fresh tensor: labels.ge(0), the
conjunction with the mask, edge_mask.long(), the two outputs of the inference
engine (which the spec requires to treat its inputs as read-only and return
newly allocated outputs), the two boolean-mask selections, the criterion value
and the interpolated loss; nothing is written to an existing address. -/
def lossProg {n L : ℕ} {α : Type} [LinearOrderedField α] (engine : EngineG n α)
    (criterion : List (Fin (L + 1) → α) → List ℤ → α) (interpolation : α)
    (eA sibA copA grdA labA yA mA : ℕ) (h : Heap n L α) :
    Option (ℕ × ℕ × Heap n L α) :=
  (readM2 h eA).bind fun se =>
  (readT3 h sibA).bind fun ssib =>
  (readT3 h copA).bind fun scop =>
  (readT3 h grdA).bind fun sgrd =>
  (readLab h labA).bind fun sl =>
  (readIM2 h yA).bind fun y =>
  (readBM2 h mA).bind fun mask =>
    let selS := (maskedIndices (edgeMask y mask)).map fun p => sl p.1 p.2
    let selY := (maskedIndices (edgeMask y mask)).map fun p => y p.1 p.2
    let r := engine se ssib scop sgrd mask (edgeMaskLong y mask)
    let p1 := heapAlloc h (.bm2 (fun d hd => decide (0 ≤ y d hd)))
    let p2 := heapAlloc p1.2 (.bm2 (edgeMask y mask))
    let p3 := heapAlloc p2.2 (.im2 (edgeMaskLong y mask))
    let p4 := heapAlloc p3.2 (.sc r.1)
    let p5 := heapAlloc p4.2 (.m2 r.2)
    let p6 := heapAlloc p5.2 (.labList selS)
    let p7 := heapAlloc p6.2 (.intList selY)
    let p8 := heapAlloc p7.2 (.sc (criterion selS selY))
    let p9 := heapAlloc p8.2
      (.sc (interpolation * criterion selS selY + (1 - interpolation) * r.1))
    some (p9.1, p5.1, p9.2)

end SRL

namespace SRL

/-- Concrete raw sibling scores for evaluation: a fixed formula above the
diagonal of the last two dimensions and the constant 5 below it. -/
def rawSibA : Tensor4 1 2 ℚ :=
  fun _ z x y => if x.val ≤ y.val then (z.val : ℚ) + 2 * x.val + 3 * y.val else 5

/-- The same raw sibling scores as rawSibA on and above the diagonal of the last
two dimensions, but with different (independently scored) entries below it. -/
def rawSibB : Tensor4 1 2 ℚ :=
  fun _ z x y => if x.val ≤ y.val then (z.val : ℚ) + 2 * x.val + 3 * y.val else 9

/-- Concrete raw co-parent scores: a fixed formula where the first of the two
head dimensions does not exceed the second, and the constant 7 elsewhere. -/
def rawCopA : Tensor4 1 2 ℚ :=
  fun _ z x y => if z.val ≤ x.val then (y.val : ℚ) + 4 * z.val + 5 * x.val else 7

/-- The same raw co-parent scores as rawCopA where the first head dimension does
not exceed the second, but different entries elsewhere. -/
def rawCopB : Tensor4 1 2 ℚ :=
  fun _ z x y => if z.val ≤ x.val then (y.val : ℚ) + 4 * z.val + 5 * x.val else 11

/-- Concrete edge scores for evaluating decode: below the threshold at (0, 0),
above it elsewhere. -/
def eW2 : Tensor2 2 ℚ := fun d h => if d = 0 ∧ h = 0 then 0 else 1

/-- Concrete label scores for evaluating decode: the score of label k is k, so
label 1 is the maximum. -/
def lW2 : LabelTensor 2 1 ℚ := fun _ _ k => (k.val : ℚ)

/-- A concrete inference engine for evaluating loss: zero edge loss and zero
marginals. -/
noncomputable def engW : EngineG 1 ℝ := fun _ _ _ _ _ _ => (0, fun _ _ => 0)

/-- Concrete all-zero real edge scores on one position. -/
noncomputable def zeroT2 : Tensor2 1 ℝ := fun _ _ => 0

/-- Concrete all-zero real triplet scores on one position. -/
noncomputable def zeroT3 : Tensor3 1 ℝ := fun _ _ _ => 0

/-- Concrete all-zero real label scores on one position with one label. -/
noncomputable def zeroLab : LabelTensor 1 0 ℝ := fun _ _ _ => 0

/-- Concrete all-zero gold labels on one position. -/
def zeroI : Fin 1 → Fin 1 → ℤ := fun _ _ => 0

/-- Concrete all-true mask on one position. -/
def fullM : BoolMask 1 := fun _ _ => true

/-- Concrete rational edge scores stored on the witness heap. -/
def eH : Tensor2 1 ℚ := fun _ _ => 1

/-- Concrete rational label scores stored on the witness heap. -/
def lH : LabelTensor 1 0 ℚ := fun _ _ _ => 0

/-- A concrete two-tensor heap holding the decode inputs. -/
def heapW : Heap 1 0 ℚ := [TVal.m2 eH, TVal.lab lH]

/-- The heap produced by running the decode heap program on heapW: the two
fresh allocations followed by the in-place masked fill at address 2. -/
def heapWAfter : Heap 1 0 ℚ :=
  heapWrite ((heapW ++ [TVal.im2 (argmaxLast lH)]) ++ [TVal.bm2 (ltHalf eH)]) 2
    (TVal.im2 (maskedFillInt (argmaxLast lH) (ltHalf eH) (-1)))

/-- C1: the sibling potential assembled by VISemanticRoleLabelingModel.forward is,
for every raw score tensor, exactly invariant under exchange of its two dependent
coordinates.  The assembled tensor is laid out (batch, dependent, head, sibling),
so the entry for head j with dependents i and k is sibPotential raw b i j k, and
the claimed equality sib with head j and dependents (i, k) equal to sib with head
j and dependents (k, i) is the first conjunct.  The second conjunct states that
the output is determined by the raw scores on and above the diagonal of the last
two raw dimensions alone: the independently scored lower-triangular raw values
never reach the output, the lower half being produced by transposition. -/
theorem sib_potential_symmetric {α : Type} [LinearOrderedField α] {B n : ℕ} :
    (∀ (raw : Tensor4 B n α) (b : Fin B) (i j k : Fin n),
      sibPotential raw b i j k = sibPotential raw b k j i) ∧
    (∀ raw raw' : Tensor4 B n α,
      (∀ (b : Fin B) (z x y : Fin n), x.val ≤ y.val → raw b z x y = raw' b z x y) →
      sibPotential raw = sibPotential raw') := by
  constructor
  · intro raw b i j k
    simp only [sibPotential, permute0312, triu4, transposeLast2]
    rcases lt_trichotomy i.val k.val with h | h | h
    · rw [if_neg (by omega), if_pos (by omega), if_pos (by omega), if_neg (by omega),
        zero_add, add_zero]
    · have hik : i = k := Fin.ext h
      subst hik
      rw [if_pos (by omega), if_neg (by omega)]
    · rw [if_pos (by omega), if_neg (by omega), if_neg (by omega), if_pos (by omega),
        zero_add, add_zero]
  · intro raw raw' hagree
    funext b i j k
    simp only [sibPotential, permute0312, triu4, transposeLast2]
    rcases le_or_lt k.val i.val with h | h
    · rw [if_pos (by omega), if_neg (by omega), if_pos (by omega), if_neg (by omega),
        hagree b j k i (by omega)]
    · rw [if_neg (by omega), if_pos (by omega), if_neg (by omega), if_pos (by omega),
        hagree b j i k (by omega)]

/-- Witness for C1: two concrete raw tensors agreeing on and above the diagonal of
the last two dimensions but differing below it assemble to the same sibling
potential. -/
theorem sib_potential_symmetric_w :
    (∀ (b : Fin 1) (z x y : Fin 2), x.val ≤ y.val → rawSibA b z x y = rawSibB b z x y) ∧
    sibPotential rawSibA = sibPotential rawSibB := by
  have hup : ∀ (b : Fin 1) (z x y : Fin 2), x.val ≤ y.val → rawSibA b z x y = rawSibB b z x y := by
    intro b z x y h
    simp only [rawSibA, rawSibB, if_pos h]
  exact ⟨hup, sib_potential_symmetric.2 rawSibA rawSibB hup⟩

/-- C2: the co-parent potential assembled by VISemanticRoleLabelingModel.forward
is, for every raw score tensor, exactly invariant under exchange of its two head
coordinates.  The assembled tensor is laid out (batch, dependent, head, co-parent
head), so the entry for dependent i with heads j and k is copPotential raw b i j k,
and the claimed equality cop with dependent i and heads (j, k) equal to cop with
dependent i and heads (k, j) is the first conjunct.  The second conjunct states
that the output depends only on the raw entries whose first head dimension does
not exceed the second: the other half is produced by transposition of that
triangular half, never independently computed. -/
theorem cop_potential_symmetric {α : Type} [LinearOrderedField α] {B n : ℕ} :
    (∀ (raw : Tensor4 B n α) (b : Fin B) (i j k : Fin n),
      copPotential raw b i j k = copPotential raw b i k j) ∧
    (∀ raw raw' : Tensor4 B n α,
      (∀ (b : Fin B) (z x y : Fin n), z.val ≤ x.val → raw b z x y = raw' b z x y) →
      copPotential raw = copPotential raw') := by
  constructor
  · intro raw b i j k
    simp only [copPotential, permute0312, triu4, transposeLast2]
    rcases lt_trichotomy j.val k.val with h | h | h
    · rw [if_pos (by omega), if_neg (by omega), if_neg (by omega), if_pos (by omega),
        zero_add, add_zero]
    · have hjk : j = k := Fin.ext h
      subst hjk
      rw [if_pos (by omega), if_neg (by omega)]
    · rw [if_neg (by omega), if_pos (by omega), if_pos (by omega), if_neg (by omega),
        zero_add, add_zero]
  · intro raw raw' hagree
    funext b i j k
    simp only [copPotential, permute0312, triu4, transposeLast2]
    rcases le_or_lt j.val k.val with h | h
    · rw [if_pos (by omega), if_neg (by omega), if_pos (by omega), if_neg (by omega),
        hagree b j k i (by omega)]
    · rw [if_neg (by omega), if_pos (by omega), if_neg (by omega), if_pos (by omega),
        hagree b k j i (by omega)]

/-- Witness for C2: two concrete raw tensors agreeing where the first head
dimension does not exceed the second but differing elsewhere assemble to the
same co-parent potential. -/
theorem cop_potential_symmetric_w :
    (∀ (b : Fin 1) (z x y : Fin 2), z.val ≤ x.val → rawCopA b z x y = rawCopB b z x y) ∧
    copPotential rawCopA = copPotential rawCopB := by
  have hup : ∀ (b : Fin 1) (z x y : Fin 2), z.val ≤ x.val → rawCopA b z x y = rawCopB b z x y := by
    intro b z x y h
    simp only [rawCopA, rawCopB, if_pos h]
  exact ⟨hup, cop_potential_symmetric.2 rawCopA rawCopB hup⟩

/-- The accumulator of the argmax fold never decreases in value. -/
theorem argmax_foldl_acc_le {α : Type} [LinearOrderedField α] {β : Type} (v : β → α)
    (l : List β) :
    ∀ acc : β, v acc ≤ v (l.foldl (fun best i => if v best < v i then i else best) acc) := by
  induction l with
  | nil => intro acc; exact le_refl _
  | cons x xs ih =>
      intro acc
      simp only [List.foldl_cons]
      by_cases h : v acc < v x
      · rw [if_pos h]
        exact le_trans (le_of_lt h) (ih x)
      · rw [if_neg h]
        exact ih acc

/-- The result of the argmax fold dominates every element of the list. -/
theorem argmax_foldl_mem_le {α : Type} [LinearOrderedField α] {β : Type} (v : β → α)
    (l : List β) :
    ∀ (acc : β) (x : β), x ∈ l →
      v x ≤ v (l.foldl (fun best i => if v best < v i then i else best) acc) := by
  induction l with
  | nil => intro acc x hx; cases hx
  | cons y ys ih =>
      intro acc x hx
      simp only [List.foldl_cons]
      rcases List.mem_cons.mp hx with rfl | hx'
      · by_cases h : v acc < v x
        · rw [if_pos h]
          exact argmax_foldl_acc_le v ys x
        · rw [if_neg h]
          exact le_trans (not_lt.mp h) (argmax_foldl_acc_le v ys acc)
      · exact ih _ x hx'

/-- argmaxFin returns an index of maximal value. -/
theorem argmaxFin_le {α : Type} [LinearOrderedField α] {L : ℕ} (v : Fin (L + 1) → α)
    (k : Fin (L + 1)) : v k ≤ v (argmaxFin v) :=
  argmax_foldl_mem_le v (List.finRange (L + 1)) 0 k (List.mem_finRange k)

/-- C3 counterexample: for a fully unpadded three-position batch element (root
plus two real tokens), the arc mask handed to the inference engine and the loss
is true at the self-loop position (1, 1), and in general it is not false at
every self-loop position, contrary to the claim. -/
theorem arc_mask_self_loop_not_excluded :
    arcMask (n := 3) (fun _ => true) 1 1 = true ∧
    ¬ (∀ (m : Fin 3 → Bool) (i : Fin 3), arcMask m i i = false) := by
  constructor
  · decide
  · decide

/-- C3 amended: the arc mask handed to the inference engine and the loss
(built before any marginal is computed) is true exactly at positions whose
dependent index is non-zero and whose dependent and head tokens are both
unpadded; consequently it is false at every root-as-dependent position and at
every padding position, while self-loop positions between unpadded non-root
tokens are left true. -/
theorem arc_mask_characterization {n : ℕ} (m : Fin n → Bool) (d h : Fin n) :
    arcMask m d h = true ↔ (d.val ≠ 0 ∧ m d = true ∧ m h = true) := by
  by_cases hd : d.val = 0
  · simp [arcMask, hd]
  · simp [arcMask, pairMask, hd, and_comm]

/-- C5: decode returns, at each position, the arg-max label index over the label
dimension when the edge marginal is at least 0.5, and the sentinel -1 when the
marginal is below 0.5; the returned index maximizes the label scores at that
position.  The 0.5 threshold is the fixed literal of the source, not a
parameter of decode. -/
theorem decode_threshold_argmax {α : Type} [LinearOrderedField α] {n L : ℕ}
    (se : Tensor2 n α) (sl : LabelTensor n L α) (d h : Fin n) :
    (se d h < 1 / 2 → decode se sl d h = -1) ∧
    (1 / 2 ≤ se d h →
      decode se sl d h = ((argmaxFin (sl d h) : ℕ) : ℤ) ∧
      ∀ k, sl d h k ≤ sl d h (argmaxFin (sl d h))) := by
  constructor
  · intro hlt
    have hb : ltHalf se d h = true := decide_eq_true hlt
    simp [decode, maskedFillInt, hb]
  · intro hge
    refine ⟨?_, fun k => argmaxFin_le (sl d h) k⟩
    have hb : ltHalf se d h = false := decide_eq_false (not_lt.mpr hge)
    simp [decode, maskedFillInt, argmaxLast, hb]

/-- Witness for C5: at concrete inputs, the below-threshold position decodes to
the sentinel -1 and an above-threshold position decodes to the arg-max label
index. -/
theorem decode_threshold_argmax_w :
    decode eW2 lW2 0 0 = -1 ∧ decode eW2 lW2 0 1 = ((argmaxFin (lW2 0 1) : ℕ) : ℤ) := by
  constructor
  · exact (decode_threshold_argmax eW2 lW2 0 0).1 (by norm_num [eW2])
  · exact ((decode_threshold_argmax eW2 lW2 0 1).2 (by norm_num [eW2])).1

/-- C6: the arc-existence mask used by the loss is true exactly where the gold
label is known (at least 0) and the structural mask is true: unknown-gold and
structurally invalid positions are excluded and nothing else is. -/
theorem edge_mask_characterization {n : ℕ} (labels : Fin n → Fin n → ℤ)
    (mask : BoolMask n) (d h : Fin n) :
    edgeMask labels mask d h = true ↔ (0 ≤ labels d h ∧ mask d h = true) := by
  simp [edgeMask]

/-- C10: every entry of the tensor returned by decode is either the sentinel -1
or a label index between 0 and n_labels - 1 (the label dimension has size
L + 1), and -1 appears exactly at the positions whose edge marginal is below
the 0.5 threshold. -/
theorem decode_label_range {α : Type} [LinearOrderedField α] {n L : ℕ}
    (se : Tensor2 n α) (sl : LabelTensor n L α) (d h : Fin n) :
    (decode se sl d h = -1 ∨
      (0 ≤ decode se sl d h ∧ decode se sl d h ≤ (L : ℤ))) ∧
    (decode se sl d h = -1 ↔ se d h < 1 / 2) := by
  have hv : decode se sl d h =
      if se d h < 1 / 2 then -1 else ((argmaxFin (sl d h) : ℕ) : ℤ) := by
    simp [decode, maskedFillInt, ltHalf, argmaxLast]
  by_cases hb : se d h < 1 / 2
  · rw [hv, if_pos hb]
    exact ⟨Or.inl rfl, ⟨fun _ => hb, fun _ => rfl⟩⟩
  · rw [hv, if_neg hb]
    have hle : ((argmaxFin (sl d h) : ℕ) : ℤ) ≤ (L : ℤ) := by
      have := Nat.lt_succ_iff.mp (argmaxFin (sl d h)).isLt
      exact_mod_cast this
    refine ⟨Or.inr ⟨Int.natCast_nonneg _, hle⟩, ?_, ?_⟩
    · intro he
      have h0 : (0 : ℤ) ≤ -1 := he ▸ Int.natCast_nonneg _
      omega
    · intro hlt
      exact absurd hlt hb

/-- Membership in the boolean-mask selection is exactly truth of the mask. -/
theorem mem_maskedIndices {n : ℕ} {em : BoolMask n} {d h : Fin n} :
    (d, h) ∈ maskedIndices em ↔ em d h = true := by
  constructor
  · intro hmem
    simp only [maskedIndices, List.mem_flatMap, List.mem_filterMap, List.mem_finRange,
      true_and] at hmem
    obtain ⟨a, b, hb⟩ := hmem
    by_cases hab : em a b = true
    · rw [if_pos hab] at hb
      obtain ⟨rfl, rfl⟩ := Prod.mk.injEq .. ▸ Option.some.injEq .. ▸ hb
      exact hab
    · rw [if_neg hab] at hb
      cases hb
  · intro hdh
    simp only [maskedIndices, List.mem_flatMap, List.mem_filterMap, List.mem_finRange,
      true_and]
    exact ⟨d, h, by rw [if_pos hdh]⟩

/-- C4: spec-modelled — with max_iter = 0 both inference strategies return
marginals equal elementwise to the sigmoid of the unary potential under the
mask, for every unary potential, every triplet potentials and every mask.  The
engines (supar.structs) are not under src and are modelled from spec sections
4.2.1 and 4.2.2. -/
theorem inference_zero_iter_sigmoid {n : ℕ} :
    (∀ (u : Tensor2 n ℝ) (sib cop grd : Tensor3 n ℝ) (mask : BoolMask n),
      mfviInfer u sib cop grd mask 0 =
        fun i j => if mask i j then sigmoid (u i j) else 0) ∧
    (∀ (u : Tensor2 n ℝ) (sib cop grd : Tensor3 n ℝ) (mask : BoolMask n),
      lbpInfer u sib cop grd mask 0 =
        fun i j => if mask i j then sigmoid (u i j) else 0) := by
  constructor
  · intro u sib cop grd mask
    rfl
  · intro u sib cop grd mask
    funext i j
    simp [lbpInfer, lbpBelief]

/-- C9: the scalar returned by loss equals interpolation times the label
cross-entropy plus one minus interpolation times the edge loss returned by the
configured inference engine; the second returned value is exactly the marginals
returned by that engine; and the label cross-entropy is taken over exactly the
positions whose gold label is known and whose structural mask is true. -/
theorem vi_loss_formula {n L : ℕ} (engine : EngineG n ℝ) (interpolation : ℝ)
    (se : Tensor2 n ℝ) (ssib scop sgrd : Tensor3 n ℝ) (sl : LabelTensor n L ℝ)
    (labels : Fin n → Fin n → ℤ) (mask : BoolMask n) :
    (VIloss engine interpolation se ssib scop sgrd sl labels mask).1 =
      interpolation * crossEntropyMean
          ((maskedIndices (edgeMask labels mask)).map fun p => sl p.1 p.2)
          ((maskedIndices (edgeMask labels mask)).map fun p => labels p.1 p.2) +
        (1 - interpolation) * (engine se ssib scop sgrd mask (edgeMaskLong labels mask)).1 ∧
    (VIloss engine interpolation se ssib scop sgrd sl labels mask).2 =
      (engine se ssib scop sgrd mask (edgeMaskLong labels mask)).2 ∧
    ∀ d h : Fin n, (d, h) ∈ maskedIndices (edgeMask labels mask) ↔
      (0 ≤ labels d h ∧ mask d h = true) := by
  refine ⟨rfl, rfl, ?_⟩
  intro d h
  rw [mem_maskedIndices]
  simp [edgeMask]

/-- C7: decode and loss are pure functions of their arguments: two calls with
identical input tensors, under the same configured inference engine and
interpolation constant, produce identical outputs; there is no hidden state and
no randomness in either computation. -/
theorem decode_loss_deterministic {α : Type} [LinearOrderedField α] {n L : ℕ} :
    (∀ (se se' : Tensor2 n α) (sl sl' : LabelTensor n L α),
      se = se' → sl = sl' → decode se sl = decode se' sl') ∧
    (∀ (engine : EngineG n ℝ) (interpolation : ℝ) (se se' : Tensor2 n ℝ)
      (ssib ssib' scop scop' sgrd sgrd' : Tensor3 n ℝ) (sl sl' : LabelTensor n L ℝ)
      (labels labels' : Fin n → Fin n → ℤ) (mask mask' : BoolMask n),
      se = se' → ssib = ssib' → scop = scop' → sgrd = sgrd' → sl = sl' →
      labels = labels' → mask = mask' →
      VIloss engine interpolation se ssib scop sgrd sl labels mask =
        VIloss engine interpolation se' ssib' scop' sgrd' sl' labels' mask') := by
  constructor
  · intro se se' sl sl' h1 h2
    rw [h1, h2]
  · intro engine interpolation se se' ssib ssib' scop scop' sgrd sgrd' sl sl'
      labels labels' mask mask' h1 h2 h3 h4 h5 h6 h7
    rw [h1, h2, h3, h4, h5, h6, h7]

/-- Witness for C7: both parts applied at concrete inputs, the equal-input
hypotheses discharged by rfl. -/
theorem decode_loss_deterministic_w :
    decode eW2 lW2 = decode eW2 lW2 ∧
    VIloss engW (1 / 10) zeroT2 zeroT3 zeroT3 zeroT3 zeroLab zeroI fullM =
      VIloss engW (1 / 10) zeroT2 zeroT3 zeroT3 zeroT3 zeroLab zeroI fullM :=
  ⟨decode_loss_deterministic.1 eW2 eW2 lW2 lW2 rfl rfl,
    (decode_loss_deterministic (α := ℚ)).2 engW (1 / 10) zeroT2 zeroT2 zeroT3 zeroT3
      zeroT3 zeroT3 zeroT3 zeroT3 zeroLab zeroLab zeroI zeroI fullM fullM
      rfl rfl rfl rfl rfl rfl rfl⟩

/-- Lookup below the length of the left part of an append is unchanged. -/
theorem getElem?_append_lt {β : Type} (l t : List β) (a : ℕ) (ha : a < l.length) :
    (l ++ t)[a]? = l[a]? := by
  induction l generalizing a with
  | nil => exact absurd ha (by simp)
  | cons x xs ih =>
      cases a with
      | zero => simp only [List.cons_append, List.getElem?_cons_zero]
      | succ a =>
          simp only [List.cons_append, List.getElem?_cons_succ]
          exact ih a (by simpa using ha)

/-- Lookup away from the written index is unchanged by List.set. -/
theorem getElem?_set_of_ne {β : Type} (l : List β) (i : ℕ) (v : β) (a : ℕ)
    (hne : a ≠ i) : (l.set i v)[a]? = l[a]? := by
  induction l generalizing i a with
  | nil => rfl
  | cons x xs ih =>
      cases i with
      | zero =>
          cases a with
          | zero => exact absurd rfl hne
          | succ a => simp only [List.set_cons_zero, List.getElem?_cons_succ]
      | succ i =>
          cases a with
          | zero => simp only [List.set_cons_succ, List.getElem?_cons_zero]
          | succ a =>
              simp only [List.set_cons_succ, List.getElem?_cons_succ]
              exact ih i a (by omega)

/-- C8: loss and decode never mutate a caller-owned input tensor and return
newly allocated outputs.  In the heap model, whenever the decode program (or
the loss program) runs, every address that existed before the call still holds
the same value after it, and every returned address is fresh (at least the old
heap length).  The inference engine and the criterion are external calls: per
the spec, the engine treats its inputs as read-only and returns newly allocated
outputs, which is how the loss program models it. -/
theorem decode_loss_no_mutation {α : Type} [LinearOrderedField α] {n L : ℕ} :
    (∀ (h : Heap n L α) (eA lA r : ℕ) (h' : Heap n L α),
      decodeProg eA lA h = some (r, h') →
      (∀ a, a < h.length → h'[a]? = h[a]?) ∧ h.length ≤ r) ∧
    (∀ (engine : EngineG n α) (criterion : List (Fin (L + 1) → α) → List ℤ → α)
      (interpolation : α) (h : Heap n L α) (eA sibA copA grdA labA yA mA lossA margA : ℕ)
      (h' : Heap n L α),
      lossProg engine criterion interpolation eA sibA copA grdA labA yA mA h =
        some (lossA, margA, h') →
      (∀ a, a < h.length → h'[a]? = h[a]?) ∧ h.length ≤ lossA ∧ h.length ≤ margA) := by
  constructor
  · intro h eA lA r h' hrun
    simp only [decodeProg, Option.bind_eq_some, Option.some.injEq, Prod.mk.injEq,
      heapAlloc, heapWrite] at hrun
    obtain ⟨sl, hsl, se, hse, hr, hh⟩ := hrun
    subst hr hh
    constructor
    · intro a ha
      rw [getElem?_set_of_ne _ _ _ _ (by omega)]
      rw [getElem?_append_lt _ _ _ (by simp; omega)]
      exact getElem?_append_lt _ _ _ ha
    · exact le_refl _
  · intro engine criterion interpolation h eA sibA copA grdA labA yA mA lossA margA h' hrun
    simp only [lossProg, Option.bind_eq_some, Option.some.injEq, Prod.mk.injEq,
      heapAlloc] at hrun
    obtain ⟨se, hse, ssib, hsib, scop, hcop, sgrd, hgrd, sl, hsl, y, hy, mask, hm,
      hl, hmg, hh⟩ := hrun
    subst hl hmg hh
    refine ⟨?_, ?_, ?_⟩
    · intro a ha
      simp only [List.append_assoc]
      exact getElem?_append_lt _ _ _ ha
    · simp only [List.length_append, List.length_cons, List.length_nil]
      omega
    · simp only [List.length_append, List.length_cons, List.length_nil]
      omega

/-- Witness for C8: the decode heap program run on a concrete two-tensor heap
leaves both pre-existing addresses unchanged and returns the fresh address 2. -/
theorem decode_loss_no_mutation_w :
    heapWAfter[0]? = heapW[0]? ∧ heapWAfter[1]? = heapW[1]? ∧ heapW.length ≤ 2 := by
  have hrun : decodeProg 0 1 heapW = some (2, heapWAfter) := rfl
  have hres := decode_loss_no_mutation.1 heapW 0 1 2 heapWAfter hrun
  exact ⟨hres.1 0 (by decide), hres.1 1 (by decide), hres.2⟩

end SRL
